import Mathlib

/-!
Verification development for the blood-report analysis server.

The server's response-normalization layer (`safeParseJSON` in the main server
variant), the `/api/analyze` route, the upload filename scheme
(`multer.diskStorage`'s `filename` callback), and the client renderer's
category handling (`ReportPreview.jsx`) are embedded as executable Lean
definitions over `List Char` texts, and the specified properties are proved
or refuted against these definitions.

Modelling notes:
- JavaScript strings are modelled as `List Char`.  `JSON.parse` is modelled
  by `jsonParse`, a strict recursive-descent parser of the JSON grammar
  (double-quoted strings with the standard escapes, no trailing commas, no
  leading zeros, control characters rejected inside strings); numbers are
  modelled as exact rationals.  Lone-surrogate `\u` escapes are rejected,
  which is the one place the model is stricter than the engine.
- JavaScript object semantics are modelled by association lists with
  JS insertion semantics (`jsInsertP`): an assignment to an existing key
  overwrites in place, a new key is appended.
- The server files are ES modules, hence strict mode: assigning a property
  to a primitive value throws a TypeError.  The route's post-parse array
  coercion is therefore modelled as `Except` (`coerceArrays`).
-/

/-! ### Character constants (written via code points to keep the text plain) -/

def dq : Char := Char.ofNat 34

def sqC : Char := Char.ofNat 39

def bslash : Char := Char.ofNat 92

def lbrace : Char := Char.ofNat 123

def rbrace : Char := Char.ofNat 125

def lbrackC : Char := Char.ofNat 91

def rbrackC : Char := Char.ofNat 93

def commaC : Char := Char.ofNat 44

def colonC : Char := Char.ofNat 58

def lfChar : Char := Char.ofNat 10

def crChar : Char := Char.ofNat 13

def tabChar : Char := Char.ofNat 9

def spaceChar : Char := Char.ofNat 32

def dotChar : Char := Char.ofNat 46

/-! ### JSON value model -/

inductive JValue where
  | null : JValue
  | bool (b : Bool) : JValue
  | num (q : Rat) : JValue
  | str (s : List Char) : JValue
  | arr (xs : List JValue) : JValue
  | obj (fs : List (List Char × JValue)) : JValue

/-- JS object insertion: overwrite in place if the key exists, else append. -/
def jsInsertP {α : Type} (k : List Char) (v : α) : List (List Char × α) → List (List Char × α)
  | [] => [(k, v)]
  | (k2, v2) :: rest => if k2 = k then (k2, v) :: rest else (k2, v2) :: jsInsertP k v rest

/-- JS property lookup on an association list. -/
def lookupP {α : Type} : List (List Char × α) → List Char → Option α
  | [], _ => none
  | (k2, v2) :: rest, k => if k2 = k then some v2 else lookupP rest k

/-- Build a JS object from parsed members in order (duplicate keys: last wins,
first position kept), as `JSON.parse` does. -/
def mkObj (ps : List (List Char × JValue)) : List (List Char × JValue) :=
  ps.foldl (fun m p => jsInsertP p.1 p.2 m) []

/-! ### JSON parser (model of `JSON.parse`) -/

/-- JSON insignificant whitespace: space, tab, line feed, carriage return. -/
def jsonWsB (c : Char) : Bool :=
  c = spaceChar || c = tabChar || c = lfChar || c = crChar

def skipWsJ (cs : List Char) : List Char := cs.dropWhile jsonWsB

def isDigitC (c : Char) : Bool := 48 ≤ c.toNat && c.toNat ≤ 57

def dvalC (c : Char) : Nat := c.toNat - 48

def digitsToNat (ds : List Char) : Nat := ds.foldl (fun a c => a * 10 + dvalC c) 0

def hexValC (c : Char) : Option Nat :=
  if 48 ≤ c.toNat && c.toNat ≤ 57 then some (c.toNat - 48)
  else if 97 ≤ c.toNat && c.toNat ≤ 102 then some (c.toNat - 87)
  else if 65 ≤ c.toNat && c.toNat ≤ 70 then some (c.toNat - 55)
  else none

/-- Parse the body of a JSON string after the opening quote; returns the
decoded content and the input remaining after the closing quote. -/
def parseStrBody : Nat → List Char → Option (List Char × List Char)
  | 0, _ => none
  | _ + 1, [] => none
  | f + 1, c :: rest =>
    if c = dq then some ([], rest)
    else if c = bslash then
      match rest with
      | [] => none
      | e :: rest2 =>
        if e = dq then (parseStrBody f rest2).map (fun p => (dq :: p.1, p.2))
        else if e = bslash then (parseStrBody f rest2).map (fun p => (bslash :: p.1, p.2))
        else if e = Char.ofNat 47 then (parseStrBody f rest2).map (fun p => (Char.ofNat 47 :: p.1, p.2))
        else if e = 'b' then (parseStrBody f rest2).map (fun p => (Char.ofNat 8 :: p.1, p.2))
        else if e = 'f' then (parseStrBody f rest2).map (fun p => (Char.ofNat 12 :: p.1, p.2))
        else if e = 'n' then (parseStrBody f rest2).map (fun p => (lfChar :: p.1, p.2))
        else if e = 'r' then (parseStrBody f rest2).map (fun p => (crChar :: p.1, p.2))
        else if e = 't' then (parseStrBody f rest2).map (fun p => (tabChar :: p.1, p.2))
        else if e = 'u' then
          match rest2 with
          | h1 :: h2 :: h3 :: h4 :: rest3 =>
            match hexValC h1, hexValC h2, hexValC h3, hexValC h4 with
            | some a, some b, some c2, some d =>
              let n := ((a * 16 + b) * 16 + c2) * 16 + d
              if 55296 ≤ n && n ≤ 57343 then none
              else (parseStrBody f rest3).map (fun p => (Char.ofNat n :: p.1, p.2))
            | _, _, _, _ => none
          | _ => none
        else none
    else if c.toNat < 32 then none
    else (parseStrBody f rest).map (fun p => (c :: p.1, p.2))

/-- Fraction part of a JSON number: `(fracValue, fracDigitCount, rest)`. -/
def parseFracPart (cs : List Char) : Option (Nat × Nat × List Char) :=
  match cs with
  | c :: rest =>
    if c = dotChar then
      match List.span isDigitC rest with
      | ([], _) => none
      | (ds, rest2) => some (digitsToNat ds, ds.length, rest2)
    else some (0, 0, cs)
  | [] => some (0, 0, [])

/-- Exponent part of a JSON number: `(exponent, rest)`. -/
def parseExpPart (cs : List Char) : Option (Int × List Char) :=
  match cs with
  | c :: rest =>
    if c = 'e' || c = 'E' then
      match rest with
      | s :: rest2 =>
        if s = Char.ofNat 43 then
          match List.span isDigitC rest2 with
          | ([], _) => none
          | (ds, rest3) => some ((digitsToNat ds : Int), rest3)
        else if s = Char.ofNat 45 then
          match List.span isDigitC rest2 with
          | ([], _) => none
          | (ds, rest3) => some (-(digitsToNat ds : Int), rest3)
        else if isDigitC s then
          match List.span isDigitC rest with
          | (ds, rest3) => some ((digitsToNat ds : Int), rest3)
        else none
      | [] => none
    else some (0, cs)
  | [] => some (0, [])

/-- Exact rational value of a decomposed JSON number literal. -/
def mkNumVal (neg : Bool) (i : Nat) (f : Nat) (k : Nat) (e : Int) : Rat :=
  let base : Rat := (i : Rat) + (f : Rat) / ((10 ^ k : Nat) : Rat)
  let scaled : Rat :=
    match e with
    | .ofNat m => base * ((10 ^ m : Nat) : Rat)
    | .negSucc m => base / ((10 ^ (m + 1) : Nat) : Rat)
  if neg then -scaled else scaled

/-- Parse a JSON number (strict grammar: optional minus, no leading zeros,
fraction and exponent must have at least one digit). -/
def parseNum (cs : List Char) : Option (JValue × List Char) :=
  let p : Bool × List Char :=
    match cs with
    | c :: rest => if c = Char.ofNat 45 then (true, rest) else (false, cs)
    | [] => (false, [])
  match p.2 with
  | [] => none
  | c :: rest =>
    if c = '0' then
      (parseFracPart rest).bind fun q =>
      (parseExpPart q.2.2).map fun r =>
        (JValue.num (mkNumVal p.1 0 q.1 q.2.1 r.1), r.2)
    else if isDigitC c then
      match List.span isDigitC rest with
      | (ds, rest2) =>
        (parseFracPart rest2).bind fun q =>
        (parseExpPart q.2.2).map fun r =>
          (JValue.num (mkNumVal p.1 (digitsToNat (c :: ds)) q.1 q.2.1 r.1), r.2)
    else none

mutual

/-- Parse one JSON value (leading whitespace allowed); fuel-indexed. -/
def parseVal : Nat → List Char → Option (JValue × List Char)
  | 0, _ => none
  | f + 1, cs0 =>
    match skipWsJ cs0 with
    | 'n' :: 'u' :: 'l' :: 'l' :: rest => some (JValue.null, rest)
    | 't' :: 'r' :: 'u' :: 'e' :: rest => some (JValue.bool true, rest)
    | 'f' :: 'a' :: 'l' :: 's' :: 'e' :: rest => some (JValue.bool false, rest)
    | c :: rest =>
      if c = dq then
        (parseStrBody (rest.length + 1) rest).map (fun p => (JValue.str p.1, p.2))
      else if c = lbrackC then
        match skipWsJ rest with
        | c2 :: rest2 =>
          if c2 = rbrackC then some (JValue.arr [], rest2)
          else (parseItemsTail f (c2 :: rest2)).map (fun p => (JValue.arr p.1, p.2))
        | [] => none
      else if c = lbrace then
        match skipWsJ rest with
        | c2 :: rest2 =>
          if c2 = rbrace then some (JValue.obj [], rest2)
          else (parseMembersTail f (c2 :: rest2)).map (fun p => (JValue.obj (mkObj p.1), p.2))
        | [] => none
      else parseNum (c :: rest)
    | [] => none

/-- Parse `value (, value)* ]` inside an array; fuel-indexed. -/
def parseItemsTail : Nat → List Char → Option (List JValue × List Char)
  | 0, _ => none
  | f + 1, cs =>
    (parseVal f cs).bind fun p =>
    match skipWsJ p.2 with
    | c :: r2 =>
      if c = commaC then (parseItemsTail f r2).map (fun q => (p.1 :: q.1, q.2))
      else if c = rbrackC then some ([p.1], r2)
      else none
    | [] => none

/-- Parse `"key" : value (, "key" : value)* \x7d` inside an object; fuel-indexed. -/
def parseMembersTail : Nat → List Char → Option (List (List Char × JValue) × List Char)
  | 0, _ => none
  | f + 1, cs =>
    match skipWsJ cs with
    | c :: rest =>
      if c = dq then
        (parseStrBody (rest.length + 1) rest).bind fun kp =>
        match skipWsJ kp.2 with
        | c2 :: r2 =>
          if c2 = colonC then
            (parseVal f r2).bind fun vp =>
            match skipWsJ vp.2 with
            | c3 :: r3 =>
              if c3 = commaC then
                (parseMembersTail f r3).map (fun q => ((kp.1, vp.1) :: q.1, q.2))
              else if c3 = rbrace then some ([(kp.1, vp.1)], r3)
              else none
            | [] => none
          else none
        | [] => none
      else none
    | [] => none

end

/-- Model of `JSON.parse`: parse one value and require only whitespace after. -/
def jsonParse (cs : List Char) : Option JValue :=
  match parseVal (2 * cs.length + 4) cs with
  | some (v, rest) => if skipWsJ rest = [] then some v else none
  | none => none

/-! ### The four textual repairs of `safeParseJSON` -/

/-- Model of the global replace of `(\r\n|\n|\r)` by a single space:
a CRLF pair collapses to one space, lone CR or LF each become one space. -/
def collapseNewlines : List Char → List Char
  | [] => []
  | [c] => if c = crChar || c = lfChar then [spaceChar] else [c]
  | c :: c2 :: rest =>
    if c = crChar && c2 = lfChar then spaceChar :: collapseNewlines rest
    else if c = crChar || c = lfChar then spaceChar :: collapseNewlines (c2 :: rest)
    else c :: collapseNewlines (c2 :: rest)

/-- Model of the global replace of every single quote by a double quote. -/
def repairQuotes (cs : List Char) : List Char :=
  cs.map (fun c => if c = sqC then dq else c)

/-- JS regex `\s` character class (ECMAScript WhiteSpace and LineTerminator). -/
def jsWsB (c : Char) : Bool :=
  c = tabChar || c = lfChar || c = Char.ofNat 11 || c = Char.ofNat 12 || c = crChar ||
  c = spaceChar || c = Char.ofNat 160 || c = Char.ofNat 5760 ||
  (8192 ≤ c.toNat && c.toNat ≤ 8202) || c = Char.ofNat 8232 || c = Char.ofNat 8233 ||
  c = Char.ofNat 8239 || c = Char.ofNat 8287 || c = Char.ofNat 12288 || c = Char.ofNat 65279

/-- Lookahead for the regexes `,\s*\x7d` and `,\s*]`: skip `\s*`, then require
the closing character; returns the input remaining after it. -/
def wsThenClose (close : Char) : List Char → Option (List Char)
  | [] => none
  | c :: rest =>
    if c = close then some rest
    else if jsWsB c then wsThenClose close rest
    else none

/-- One global-replace pass of `,\s*close` by `close` (fuel-indexed scan;
the wrapper supplies fuel equal to the input length, which always suffices). -/
def rcbAux (close : Char) : Nat → List Char → List Char
  | _, [] => []
  | 0, cs => cs
  | f + 1, c :: rest =>
    if c = commaC then
      match wsThenClose close rest with
      | some r => close :: rcbAux close f r
      | none => commaC :: rcbAux close f rest
    else c :: rcbAux close f rest

/-- Model of `.replace(/,\s*\x7d/g, "\x7d")`. -/
def repairCommaBrace (cs : List Char) : List Char := rcbAux rbrace cs.length cs

/-- Model of `.replace(/,\s*]/g, "]")`. -/
def repairCommaBracket (cs : List Char) : List Char := rcbAux rbrackC cs.length cs

/-- The four repairs in source order. -/
def repairAll (cs : List Char) : List Char :=
  repairCommaBracket (repairCommaBrace (repairQuotes (collapseNewlines cs)))

/-- Interchange of quote characters: the single-quoted sloppy variant of a
double-quoted text (the inverse direction of the quote repair). -/
def quoteSwap (cs : List Char) : List Char :=
  cs.map (fun c => if c = dq then sqC else c)

/-- Decidable check that no comma in the text is followed, modulo regex
whitespace, by the closing character — i.e. that the `,\s*close` repair pass
finds nothing to replace. -/
def commaCleanB (close : Char) : List Char → Bool
  | [] => true
  | c :: rest =>
    if c = commaC then (wsThenClose close rest).isNone && commaCleanB close rest
    else commaCleanB close rest

/-- Optionally apply the quote interchange (the identity when the sloppy
input keeps its double quotes). -/
def maybeSwap (sw : Bool) (cs : List Char) : List Char :=
  if sw then quoteSwap cs else cs

/-! ### Greedy brace-span extraction (`text.match` with a greedy span regex) -/

/-- Input remaining after the first opening brace, if any. -/
def afterBrace : List Char → Option (List Char)
  | [] => none
  | c :: rest => if c = lbrace then some rest else afterBrace rest

/-- The prefix of the input up to and including its last closing brace,
if the input contains one. -/
def takeToLastClose : List Char → Option (List Char)
  | [] => none
  | c :: rest =>
    match takeToLastClose rest with
    | some t => some (c :: t)
    | none => if c = rbrace then some [rbrace] else none

/-- Model of the greedy regex match spanning the first opening brace to the
last closing brace (no match when no closing brace follows the first opener). -/
def extractBraced (cs : List Char) : Option (List Char) :=
  (afterBrace cs).bind fun rest => (takeToLastClose rest).map fun t => lbrace :: t

/-! ### `safeParseJSON` -/

/-- The raw value handed to `safeParseJSON`: a non-string object (the
structured path), a string, or `undefined`. -/
inductive Raw where
  | objVal (v : JValue) : Raw
  | strVal (s : List Char) : Raw
  | undef : Raw

/-- Model of `safeParseJSON` from the main server variant: falsy guard, the
`typeof text === "object"` early return, direct `JSON.parse`, then greedy
brace extraction followed by the four repairs and a second parse. -/
def safeParseJSON : Raw → Option JValue
  | .undef => none
  | .objVal v => some v
  | .strVal s =>
    if s = [] then none
    else
      match jsonParse s with
      | some v => some v
      | none =>
        match extractBraced s with
        | some core => jsonParse (repairAll core)
        | none => none

/-! ### The `/api/analyze` route -/

/-- JS truthiness of a JSON value. -/
def jsTruthy : JValue → Bool
  | .null => false
  | .bool b => b
  | .num q => if q = 0 then false else true
  | .str s => if s = [] then false else true
  | .arr _ => true
  | .obj _ => true

def abnormalKey : List Char := ("abnormal_findings").toList

def categorizedKey : List Char := ("categorized_analysis").toList

def isArrayV : Option JValue → Bool
  | some (.arr _) => true
  | _ => false

/-- Strict-mode message for a property assignment on a primitive. -/
def typeErrorMsg : String := "Cannot create property on a primitive value"

def ensureArray (fs : List (List Char × JValue)) (k : List Char) : List (List Char × JValue) :=
  if isArrayV (lookupP fs k) then fs else jsInsertP k (JValue.arr []) fs

/-- Model of the route's post-parse coercion (lines 190-195 of the main
variant): on an object, each of the two fields is replaced by an empty array
unless it already is an array; on a JS array the property assignments succeed
but are invisible to JSON serialization; on a primitive the strict-mode
assignment throws a TypeError. -/
def coerceArrays : JValue → Except String JValue
  | .obj fs => .ok (.obj (ensureArray (ensureArray fs abnormalKey) categorizedKey))
  | .arr xs => .ok (.arr xs)
  | _ => .error typeErrorMsg

/-- Outcome of the two awaited upstream calls: either both succeed, yielding
`output_parsed` (possibly absent) and `output_text`, or one of them throws. -/
inductive UpstreamOutcome where
  | success (outputParsed : Option JValue) (outputText : Raw) : UpstreamOutcome
  | failure (msg : String) : UpstreamOutcome

inductive RespBody where
  | report (v : JValue) : RespBody
  | errorMsg (s : String) : RespBody

/-- Observable outcome of one request: HTTP status, body, how many times
`fs.unlink` was invoked on the stored file, and whether the temporary store
was invoked at all. -/
structure RouteResult where
  status : Nat
  body : RespBody
  unlinks : Nat
  storeInvoked : Bool

/-- `response.output_parsed || safeParseJSON(response.output_text)`. -/
def pickParsed (op : Option JValue) (ot : Raw) : Option JValue :=
  match op with
  | some v => if jsTruthy v then some v else safeParseJSON ot
  | none => safeParseJSON ot

/-- Model of the `/api/analyze` handler of the main server variant, together
with the multer middleware (the store runs exactly when a file is attached).
The success-path `fs.unlink` at line 183 runs before parsing; a coercion
TypeError is caught by the route's catch block, which unlinks again and
responds 500 with the thrown message. -/
def analyzeRoute (file : Option String) (up : UpstreamOutcome) : RouteResult :=
  match file with
  | none => ⟨400, .errorMsg ("No file uploaded"), 0, false⟩
  | some _ =>
    match up with
    | .failure msg => ⟨500, .errorMsg msg, 1, true⟩
    | .success op ot =>
      match pickParsed op ot with
      | some v =>
        if jsTruthy v then
          match coerceArrays v with
          | .ok w => ⟨200, .report w, 1, true⟩
          | .error m => ⟨500, .errorMsg m, 2, true⟩
        else ⟨500, .errorMsg ("AI returned invalid JSON"), 1, true⟩
      | none => ⟨500, .errorMsg ("AI returned invalid JSON"), 1, true⟩

/-! ### Report renderer: category normalization and ordering
(`ReportPreview.jsx`) -/

/-- One entry of `categorized_analysis` as the renderer sees it; either field
may be absent in the underlying JSON. -/
structure CatEntry where
  category : Option String
  summary : Option String

/-- `String.trim` of JS (strips the `\s` class from both ends). -/
def jsTrim (cs : List Char) : List Char :=
  ((cs.dropWhile jsWsB).reverse.dropWhile jsWsB).reverse

/-- ASCII model of `toLowerCase` (all taxonomy names are ASCII). -/
def lowerChars (cs : List Char) : List Char := cs.map Char.toLower

/-- The key under which an entry is stored: `c.category.trim().toLowerCase()`. -/
def normKey (s : String) : List Char := lowerChars (jsTrim s.toList)

/-- The key used at render time: `cat.toLowerCase()`. -/
def lowerKey (s : String) : List Char := lowerChars s.toList

/-- Model of the `normalizedCategories` object: entries with a falsy
`category` are skipped; otherwise the summary is assigned under the
normalized key (later entries overwrite earlier ones). -/
def normalizedCategories (es : List CatEntry) : List (List Char × Option String) :=
  es.foldl
    (fun m e =>
      match e.category with
      | some c => if c.isEmpty then m else jsInsertP (normKey c) e.summary m
      | none => m)
    []

/-- The fixed display order of the category taxonomy. -/
def categoryOrder : List String :=
  ["Haematology", "Iron Status", "Renal Function & Metabolic", "Liver Function",
   "Lipids & Cardiovascular Risk", "Inflammatory Marker & CVD Risk",
   "Diabetes & Pancreatic", "Infectious Disease Serology", "Thyroid Function",
   "Tumour Markers", "Immunoserology", "Urinalysis", "Other"]

/-- The rendered category sections, in order: for each taxonomy name, the
section is emitted only when `normalizedCategories[key]` is truthy. -/
def renderCats (es : List CatEntry) : List (String × String) :=
  categoryOrder.filterMap fun cat =>
    match lookupP (normalizedCategories es) (lowerKey cat) with
    | some (some s) => if s.isEmpty then none else some (cat, s)
    | some none => none
    | none => none

/-! ### Stored filename scheme (`multer.diskStorage` filename callback) -/

/-- Decimal digit character. -/
def digitChar : Nat → Char
  | 0 => '0'
  | 1 => '1'
  | 2 => '2'
  | 3 => '3'
  | 4 => '4'
  | 5 => '5'
  | 6 => '6'
  | 7 => '7'
  | 8 => '8'
  | 9 => '9'
  | _ + 10 => '0'

/-- Decimal rendering of a natural number (model of JS number-to-string for
the integer `Date.now()`). -/
def natToChars (n : Nat) : List Char :=
  if _h : n < 10 then [digitChar n]
  else natToChars (n / 10) ++ [digitChar (n % 10)]
termination_by n
decreasing_by exact Nat.div_lt_self (by omega) (by omega)

/-- Numeric value of a digit string (left fold). -/
def charsVal (ds : List Char) : Nat := ds.foldl (fun a c => a * 10 + dvalC c) 0

/-- The suffix of a name starting at its last dot, if any. -/
def extSuffix : List Char → Option (List Char)
  | [] => none
  | c :: rest =>
    match extSuffix rest with
    | some e => some e
    | none => if c = dotChar then some (c :: rest) else none

/-- Model of `path.extname` on a basename: the suffix from the last dot,
empty when there is no dot or the only dot starts the name. -/
def extnameChars (cs : List Char) : List Char :=
  match extSuffix cs with
  | none => []
  | some e => if e.length = cs.length then [] else e

/-- Model of the multer `filename` callback: `Date.now() + ext`, where `ext`
is `path.extname(file.originalname) || ".pdf"`. -/
def storedName (now : Nat) (originalname : List Char) : List Char :=
  natToChars now ++
    (if extnameChars originalname = [] then [dotChar, 'p', 'd', 'f']
     else extnameChars originalname)

/-! ### Concrete inputs used in witnesses and counterexamples -/

def exC1 : List Char := ("\x7b\"k\":\"v\"\x7d").toList

def exC1V : JValue := JValue.obj [(("k").toList, JValue.str (("v").toList))]

/-- A JSON text whose parse is a truthy primitive (a non-empty string). -/
def exStrPrim : List Char := ("\"boom\"").toList

def exTrue : List Char := ("true").toList

def exNotJson : List Char := ("the model returned no json at all").toList

def exPdfA : List Char := ("a.pdf").toList

def exPdfB : List Char := ("b.pdf").toList

/-- Counterexample text for C3: a valid JSON object whose string content
holds an apostrophe, wrapped in prose. -/
def c3objCX : List Char := [lbrace, dq, 'a', dq, colonC, dq, 'i', 't', sqC, 's', dq, rbrace]

def c3preCX : List Char := ("Note: ").toList

def c3postCX : List Char := (" ok").toList

def c3preW : List Char := ("AI says: ").toList

def c3midW : List Char := ("\"k\":\"v\"").toList

def c3postW : List Char := (" done.").toList

def c3valW : JValue := JValue.obj [(("k").toList, JValue.str (("v").toList))]

/-- Counterexample text for C4: single-quote-delimited strings whose content
holds a double quote. -/
def c4sloppyCX : List Char := [lbrace, sqC, 'a', sqC, colonC, sqC, 'x', dq, 'y', sqC, rbrace]

/-- The double-quoted, comma-correct equivalent of `c4sloppyCX`. -/
def c4cleanCX : List Char := [lbrace, dq, 'a', dq, colonC, dq, 'x', bslash, dq, 'y', dq, rbrace]

def c4midW : List Char := ("\"a\":\"x\"").toList

def c4valW : JValue := JValue.obj [(("a").toList, JValue.str (("x").toList))]

/-- Clean interior for the second C4 witness family: an object holding an
array, into which a comma is inserted before the closing bracket. -/
def c4mid2W : List Char := ("\"a\":[\"x\",\"y\"]").toList

/-- `c4mid2W` without its final closing bracket (the insertion point). -/
def c4A2W : List Char := ("\"a\":[\"x\",\"y\"").toList

def c4val2W : JValue :=
  JValue.obj [(("a").toList,
    JValue.arr [JValue.str (("x").toList), JValue.str (("y").toList)])]

def c7entries : List CatEntry :=
  [⟨some (" HAEMATOLOGY "), some ("hb low")⟩, ⟨some ("mystery"), some ("x")⟩]

def c10entries : List CatEntry := [⟨some ("Haematology"), some ("first")⟩]

def c10last : CatEntry := ⟨some (" haematology"), some ("second")⟩

/-! ### Helper lemmas: the branches of `safeParseJSON` -/

theorem jsonParse_nil : jsonParse ([] : List Char) = none := rfl

theorem safeParseJSON_of_parse_some {s : List Char} {v : JValue}
    (h : jsonParse s = some v) : safeParseJSON (.strVal s) = some v := by
  cases s with
  | nil => rw [jsonParse_nil] at h; cases h
  | cons c cs => simp [safeParseJSON, h]

theorem safeParseJSON_of_parse_none {s : List Char}
    (h : jsonParse s = none) :
    safeParseJSON (.strVal s) =
      (extractBraced s).bind (fun core => jsonParse (repairAll core)) := by
  cases s with
  | nil => rfl
  | cons c cs =>
    cases h2 : extractBraced (c :: cs) <;> simp [safeParseJSON, h, h2]

/-! ### Claim C1 -/

/-- Claim C1: the Response Normalizer settles every raw input by the priority
chain, first success wins: a non-string object is returned unchanged; a
string that parses directly as JSON yields exactly that parse with no repair;
otherwise the greedy first-brace-to-last-brace span is extracted, the four
repairs are applied in source order (`repairAll`), and the repaired text is
parsed; if all of these fail the result is `none`. -/
theorem c1_normalizer_chain :
    (∀ v, safeParseJSON (.objVal v) = some v)
    ∧ (∀ s v, jsonParse s = some v → safeParseJSON (.strVal s) = some v)
    ∧ (∀ s, jsonParse s = none →
        safeParseJSON (.strVal s) =
          (extractBraced s).bind (fun core => jsonParse (repairAll core))) :=
  ⟨fun _ => rfl, fun _ _ h => safeParseJSON_of_parse_some h,
   fun _ h => safeParseJSON_of_parse_none h⟩

/-- Witness for C1: the chain evaluated at a structured object and at a
concrete valid JSON string. -/
theorem c1_normalizer_chain_witness :
    safeParseJSON (.objVal (.bool true)) = some (.bool true)
    ∧ safeParseJSON (.strVal exC1) = some exC1V :=
  ⟨c1_normalizer_chain.1 (.bool true),
   c1_normalizer_chain.2.1 exC1 exC1V (by rfl)⟩

/-! ### Claim C5 -/

/-- Claim C5: when the direct parse and the extract-and-repair parse both
fail, normalization returns `none` (the `InvalidModelOutput` case) without
throwing, and the route surfaces it as a 500 response with the descriptive
message, still releasing the stored file once.  `safeParseJSON` is a pure
total function of its input, reflecting that the source catches every parse
error internally and has no side effect beyond diagnostic logging. -/
theorem c5_invalid_model_output :
    ∀ (s : List Char) (fp : String),
      jsonParse s = none →
      ((extractBraced s).bind fun core => jsonParse (repairAll core)) = none →
      safeParseJSON (.strVal s) = none
      ∧ analyzeRoute (some fp) (.success none (.strVal s)) =
          ⟨500, .errorMsg ("AI returned invalid JSON"), 1, true⟩ := by
  intro s fp h1 h2
  have hs : safeParseJSON (.strVal s) = none := by
    rw [safeParseJSON_of_parse_none h1, h2]
  refine ⟨hs, ?_⟩
  simp [analyzeRoute, pickParsed, hs]

/-- Witness for C5: a prose-only reply with no brace span. -/
theorem c5_invalid_model_output_witness :
    safeParseJSON (.strVal exNotJson) = none
    ∧ analyzeRoute (some ("f.pdf")) (.success none (.strVal exNotJson)) =
        ⟨500, .errorMsg ("AI returned invalid JSON"), 1, true⟩ :=
  c5_invalid_model_output exNotJson ("f.pdf") (by rfl) (by rfl)

/-! ### Claim C8 -/

/-- Claim C8: a request with no file attached is answered with status 400 and
body `\x7b error: "No file uploaded" \x7d`; the temporary store is never
invoked and no unlink happens, whatever the upstream would have done. -/
theorem c8_no_file :
    ∀ up, analyzeRoute none up = ⟨400, .errorMsg ("No file uploaded"), 0, false⟩ :=
  fun _ => rfl

/-! ### Claim C2: counterexample -/

/-- Counterexample for C2 as stated: the reply text `"boom"` normalizes
successfully to a truthy primitive, yet the array coercion errors (strict-mode
TypeError on a primitive property assignment), the route answers 500, and the
response carries no report with the two fields present. -/
theorem c2_counterexample :
    safeParseJSON (.strVal exStrPrim) = some (JValue.str (("boom").toList))
    ∧ jsTruthy (JValue.str (("boom").toList)) = true
    ∧ coerceArrays (JValue.str (("boom").toList)) = .error typeErrorMsg
    ∧ analyzeRoute (some ("f.pdf")) (.success none (.strVal exStrPrim)) =
        ⟨500, .errorMsg typeErrorMsg, 2, true⟩ :=
  ⟨by rfl, by rfl, by rfl, by rfl⟩

/-! ### Claim C6: counterexample -/

/-- Counterexample for C6 as stated: on the reply text `true` the stored file
is unlinked twice — once on the success path, then again by the catch block
after the coercion TypeError — not exactly once. -/
theorem c6_counterexample :
    (analyzeRoute (some ("f.pdf")) (.success none (.strVal exTrue))).unlinks = 2 := by rfl

/-! ### Claim C9: counterexample -/

/-- Counterexample for C9 as stated: two distinct uploads stored in the same
`Date.now()` millisecond with the same extension receive the same name. -/
theorem c9_counterexample :
    storedName 1000 exPdfA = storedName 1000 exPdfB ∧ exPdfA ≠ exPdfB :=
  ⟨by rfl, by decide⟩

/-! ### Association-list lemmas for JS objects -/

theorem lookupP_jsInsertP_self {α : Type} (m : List (List Char × α)) (k : List Char) (v : α) :
    lookupP (jsInsertP k v m) k = some v := by
  induction m with
  | nil => simp [jsInsertP, lookupP]
  | cons p rest ih =>
    obtain ⟨k2, v2⟩ := p
    by_cases h : k2 = k
    · simp [jsInsertP, lookupP, h]
    · simp [jsInsertP, lookupP, h, ih]

theorem lookupP_jsInsertP_ne {α : Type} (m : List (List Char × α)) (k k2 : List Char) (v : α)
    (h : k ≠ k2) : lookupP (jsInsertP k v m) k2 = lookupP m k2 := by
  induction m with
  | nil => simp [jsInsertP, lookupP, h]
  | cons p rest ih =>
    obtain ⟨k3, v3⟩ := p
    by_cases h3 : k3 = k
    · subst h3; simp [jsInsertP, lookupP, h]
    · simp [jsInsertP, lookupP, h3, ih]

theorem ensureArray_isArray_self (fs : List (List Char × JValue)) (k : List Char) :
    isArrayV (lookupP (ensureArray fs k) k) = true := by
  by_cases h : isArrayV (lookupP fs k) = true
  · simp [ensureArray, h]
  · simp only [Bool.not_eq_true] at h
    simp [ensureArray, h, lookupP_jsInsertP_self]
    rfl

theorem ensureArray_lookup_ne (fs : List (List Char × JValue)) (k k2 : List Char)
    (h : k ≠ k2) : lookupP (ensureArray fs k) k2 = lookupP fs k2 := by
  by_cases ha : isArrayV (lookupP fs k) = true
  · simp [ensureArray, ha]
  · simp only [Bool.not_eq_true] at ha
    simp [ensureArray, ha, lookupP_jsInsertP_ne _ _ _ _ h]

theorem ensureArray_of_array {fs : List (List Char × JValue)} {k : List Char}
    (h : isArrayV (lookupP fs k) = true) : ensureArray fs k = fs := by
  simp [ensureArray, h]

theorem ensureArray_lookup_of_not {fs : List (List Char × JValue)} {k : List Char}
    (h : isArrayV (lookupP fs k) = false) :
    lookupP (ensureArray fs k) k = some (JValue.arr []) := by
  simp [ensureArray, h, lookupP_jsInsertP_self]

theorem abnormalKey_ne_categorizedKey : abnormalKey ≠ categorizedKey := by decide

/-! ### Claim C2: amended theorem -/

/-- Claim C2, amended to object-shaped results (the counterexample shows a
primitive result makes the coercion throw): for every successfully normalized
object, the route's coercion succeeds and leaves `abnormal_findings` and
`categorized_analysis` present as arrays — preserved when already arrays,
replaced by the empty array when missing or non-array — and such a request is
answered 200 with the coerced report. -/
theorem c2_arrays_on_objects :
    (∀ fs, ∃ fs2,
      coerceArrays (.obj fs) = .ok (.obj fs2)
      ∧ isArrayV (lookupP fs2 abnormalKey) = true
      ∧ isArrayV (lookupP fs2 categorizedKey) = true
      ∧ (isArrayV (lookupP fs abnormalKey) = true →
          lookupP fs2 abnormalKey = lookupP fs abnormalKey)
      ∧ (isArrayV (lookupP fs abnormalKey) = false →
          lookupP fs2 abnormalKey = some (JValue.arr []))
      ∧ (isArrayV (lookupP fs categorizedKey) = true →
          lookupP fs2 categorizedKey = lookupP fs categorizedKey)
      ∧ (isArrayV (lookupP fs categorizedKey) = false →
          lookupP fs2 categorizedKey = some (JValue.arr [])))
    ∧ (∀ (fp : String) op ot fs, pickParsed op ot = some (.obj fs) →
        ∃ fs2,
          analyzeRoute (some fp) (.success op ot) = ⟨200, .report (.obj fs2), 1, true⟩
          ∧ isArrayV (lookupP fs2 abnormalKey) = true
          ∧ isArrayV (lookupP fs2 categorizedKey) = true) := by
  have key : ∀ fs, ∃ fs2,
      ensureArray (ensureArray fs abnormalKey) categorizedKey = fs2
      ∧ isArrayV (lookupP fs2 abnormalKey) = true
      ∧ isArrayV (lookupP fs2 categorizedKey) = true
      ∧ (isArrayV (lookupP fs abnormalKey) = true →
          lookupP fs2 abnormalKey = lookupP fs abnormalKey)
      ∧ (isArrayV (lookupP fs abnormalKey) = false →
          lookupP fs2 abnormalKey = some (JValue.arr []))
      ∧ (isArrayV (lookupP fs categorizedKey) = true →
          lookupP fs2 categorizedKey = lookupP fs categorizedKey)
      ∧ (isArrayV (lookupP fs categorizedKey) = false →
          lookupP fs2 categorizedKey = some (JValue.arr [])) := by
    intro fs
    refine ⟨_, rfl, ?_, ?_, ?_, ?_, ?_, ?_⟩
    · rw [ensureArray_lookup_ne _ _ _ (Ne.symm abnormalKey_ne_categorizedKey)]
      exact ensureArray_isArray_self fs abnormalKey
    · exact ensureArray_isArray_self _ categorizedKey
    · intro h
      rw [ensureArray_lookup_ne _ _ _ (Ne.symm abnormalKey_ne_categorizedKey),
        ensureArray_of_array h]
    · intro h
      rw [ensureArray_lookup_ne _ _ _ (Ne.symm abnormalKey_ne_categorizedKey)]
      exact ensureArray_lookup_of_not h
    · intro h
      have h2 : isArrayV (lookupP (ensureArray fs abnormalKey) categorizedKey) = true := by
        rw [ensureArray_lookup_ne fs abnormalKey categorizedKey abnormalKey_ne_categorizedKey]
        exact h
      rw [ensureArray_of_array h2,
        ensureArray_lookup_ne fs abnormalKey categorizedKey abnormalKey_ne_categorizedKey]
    · intro h
      have h2 : isArrayV (lookupP (ensureArray fs abnormalKey) categorizedKey) = false := by
        rw [ensureArray_lookup_ne fs abnormalKey categorizedKey abnormalKey_ne_categorizedKey]
        exact h
      exact ensureArray_lookup_of_not h2
  constructor
  · intro fs
    obtain ⟨fs2, he, h1, h2, h3, h4, h5, h6⟩ := key fs
    exact ⟨fs2, by simp [coerceArrays, he], h1, h2, h3, h4, h5, h6⟩
  · intro fp op ot fs hp
    obtain ⟨fs2, he, h1, h2, _, _, _, _⟩ := key fs
    refine ⟨fs2, ?_, h1, h2⟩
    simp [analyzeRoute, hp, jsTruthy, coerceArrays, he]

/-- Witness for C2 (amended): a structured empty object is answered 200 with
both arrays present. -/
theorem c2_arrays_on_objects_witness :
    ∃ fs2,
      analyzeRoute (some ("f.pdf")) (.success (some (JValue.obj [])) .undef) =
        ⟨200, .report (.obj fs2), 1, true⟩
      ∧ isArrayV (lookupP fs2 abnormalKey) = true
      ∧ isArrayV (lookupP fs2 categorizedKey) = true :=
  c2_arrays_on_objects.2 ("f.pdf") (some (JValue.obj [])) .undef [] (by rfl)

/-! ### Claim C6: amended theorem -/

/-- Claim C6, amended: on every exit path of a request that stored a file the
route unlinks the file at least once and at most twice; the only double
release is the path where an error is thrown after the success-path cleanup
(the coercion TypeError), which is answered 500, and the second unlink's own
failure is swallowed by its no-op callback (the model has no failure channel
for it).  No path retains the file. -/
theorem c6_release_bounds :
    ∀ (fp : String) (up : UpstreamOutcome),
      1 ≤ (analyzeRoute (some fp) up).unlinks
      ∧ (analyzeRoute (some fp) up).unlinks ≤ 2
      ∧ ((analyzeRoute (some fp) up).unlinks = 2 →
          (analyzeRoute (some fp) up).status = 500) := by
  intro fp up
  cases up with
  | failure m => refine ⟨by simp [analyzeRoute], by simp [analyzeRoute], fun h => ?_⟩
                 simp [analyzeRoute] at h
  | success op ot =>
    cases hp : pickParsed op ot with
    | none => simp [analyzeRoute, hp]
    | some v =>
      by_cases ht : jsTruthy v = true
      · cases hc : coerceArrays v with
        | ok w => simp [analyzeRoute, hp, ht, hc]
        | error m => simp [analyzeRoute, hp, ht, hc]
      · simp only [Bool.not_eq_true] at ht
        simp [analyzeRoute, hp, ht]

/-- Witness for C6 (amended): the double-release path is exercised and indeed
answered 500. -/
theorem c6_release_bounds_witness :
    (analyzeRoute (some ("g.pdf")) (.success none (.strVal exStrPrim))).status = 500 :=
  (c6_release_bounds ("g.pdf") (.success none (.strVal exStrPrim))).2.2 (by rfl)

/-! ### Decimal rendering lemmas for the stored-name scheme -/

theorem dvalC_digitChar (d : Nat) (h : d < 10) : dvalC (digitChar d) = d := by
  interval_cases d <;> rfl

theorem isDigitC_digitChar (d : Nat) : isDigitC (digitChar d) = true := by
  unfold digitChar
  split <;> rfl

theorem charsVal_append_digit (xs : List Char) (d : Char) :
    charsVal (xs ++ [d]) = charsVal xs * 10 + dvalC d := by
  simp [charsVal, List.foldl_append]

theorem charsVal_natToChars (n : Nat) : charsVal (natToChars n) = n := by
  induction n using Nat.strong_induction_on with
  | _ n ih =>
    rw [natToChars]
    by_cases h : n < 10
    · simp only [h, dif_pos]
      show 0 * 10 + dvalC (digitChar n) = n
      rw [dvalC_digitChar n h]
      omega
    · simp only [h, dif_neg, not_false_iff]
      rw [charsVal_append_digit, ih (n / 10) (Nat.div_lt_self (by omega) (by omega)),
        dvalC_digitChar (n % 10) (Nat.mod_lt n (by omega))]
      omega

theorem natToChars_injective {a b : Nat} (h : natToChars a = natToChars b) : a = b := by
  have := charsVal_natToChars a
  rw [h, charsVal_natToChars b] at this
  omega

theorem natToChars_all_digits (n : Nat) : ∀ c ∈ natToChars n, isDigitC c = true := by
  induction n using Nat.strong_induction_on with
  | _ n ih =>
    rw [natToChars]
    by_cases h : n < 10
    · simp only [h, dif_pos]
      intro c hc
      simp only [List.mem_singleton] at hc
      exact hc ▸ isDigitC_digitChar n
    · simp only [h, dif_neg, not_false_iff]
      intro c hc
      rcases List.mem_append.mp hc with h1 | h2
      · exact ih (n / 10) (Nat.div_lt_self (by omega) (by omega)) c h1
      · simp only [List.mem_singleton] at h2
        exact h2 ▸ isDigitC_digitChar (n % 10)

theorem natToChars_no_dot (n : Nat) : dotChar ∉ natToChars n := by
  intro hmem
  have := natToChars_all_digits n dotChar hmem
  exact absurd this (by decide)

theorem extSuffix_shape : ∀ (cs e : List Char), extSuffix cs = some e → ∃ t, e = dotChar :: t := by
  intro cs
  induction cs with
  | nil => intro e h; cases h
  | cons c rest ih =>
    intro e h
    simp only [extSuffix] at h
    cases h2 : extSuffix rest with
    | some e2 =>
      rw [h2] at h
      injection h with h3
      exact h3 ▸ ih e2 h2
    | none =>
      rw [h2] at h
      by_cases hc : c = dotChar
      · rw [if_pos hc] at h
        injection h with h3
        exact ⟨rest, h3 ▸ by rw [hc]⟩
      · rw [if_neg hc] at h; cases h

/-- The extension actually appended by `storedName` always begins with a dot. -/
theorem storedName_ext_dot (o : List Char) :
    ∃ t, (if extnameChars o = [] then [dotChar, 'p', 'd', 'f'] else extnameChars o)
      = dotChar :: t := by
  by_cases h : extnameChars o = []
  · exact ⟨['p', 'd', 'f'], by rw [if_pos h]⟩
  · rw [if_neg h]
    unfold extnameChars at h ⊢
    cases h2 : extSuffix o with
    | none => rw [h2] at h; simp at h
    | some e =>
      rw [h2] at h
      dsimp only at h ⊢
      obtain ⟨t, ht⟩ := extSuffix_shape o e h2
      by_cases h3 : e.length = o.length
      · rw [if_pos h3] at h; simp at h
      · rw [if_neg h3]
        exact ⟨t, ht⟩

theorem append_dot_cancel :
    ∀ (as as2 bs bs2 : List Char), dotChar ∉ as → dotChar ∉ as2 →
      as ++ dotChar :: bs = as2 ++ dotChar :: bs2 → as = as2 := by
  intro as
  induction as with
  | nil =>
    intro as2 bs bs2 _ h2 heq
    cases as2 with
    | nil => rfl
    | cons c rest =>
      simp only [List.nil_append, List.cons_append, List.cons.injEq] at heq
      exact absurd (heq.1 ▸ List.mem_cons_self c rest) (heq.1 ▸ h2)
  | cons c rest ih =>
    intro as2 bs bs2 h1 h2 heq
    cases as2 with
    | nil =>
      simp only [List.cons_append, List.nil_append, List.cons.injEq] at heq
      exact absurd (heq.1 ▸ List.mem_cons_self c rest) (fun hm => h1 (heq.1 ▸ hm))
    | cons c2 rest2 =>
      simp only [List.cons_append, List.cons.injEq] at heq
      rw [heq.1]
      rw [ih rest2 bs bs2 (fun hm => h1 (List.mem_cons_of_mem c hm))
        (fun hm => h2 (List.mem_cons_of_mem c2 hm)) heq.2]

/-! ### Claim C9: amended theorem -/

/-- Claim C9, amended: the stored name is the decimal `Date.now()` timestamp
followed by the original extension (defaulting to `.pdf`), so any two uploads
stored in distinct milliseconds get distinct names; the counterexample shows
that uploads sharing a millisecond and an extension collide, so the scheme is
time-based but not collision-resistant under concurrency. -/
theorem c9_unique_per_timestamp :
    ∀ (t1 t2 : Nat) (o1 o2 : List Char), t1 ≠ t2 → storedName t1 o1 ≠ storedName t2 o2 := by
  intro t1 t2 o1 o2 hne heq
  obtain ⟨b1, hb1⟩ := storedName_ext_dot o1
  obtain ⟨b2, hb2⟩ := storedName_ext_dot o2
  unfold storedName at heq
  rw [hb1, hb2] at heq
  exact hne (natToChars_injective
    (append_dot_cancel (natToChars t1) (natToChars t2) b1 b2
      (natToChars_no_dot t1) (natToChars_no_dot t2) heq))

/-- Witness for C9 (amended): distinct milliseconds give distinct names. -/
theorem c9_unique_per_timestamp_witness :
    storedName 1 exPdfA ≠ storedName 2 exPdfB :=
  c9_unique_per_timestamp 1 2 exPdfA exPdfB (by decide)

/-! ### Extraction lemmas -/

theorem afterBrace_append_of_not_mem {pre : List Char} (h : lbrace ∉ pre) (cs : List Char) :
    afterBrace (pre ++ cs) = afterBrace cs := by
  induction pre with
  | nil => rfl
  | cons c rest ih =>
    have hc : c ≠ lbrace := fun e => h (e ▸ List.mem_cons_self c rest)
    simp only [List.cons_append, afterBrace, if_neg hc]
    exact ih (fun hm => h (List.mem_cons_of_mem c hm))

theorem afterBrace_cons_self (cs : List Char) : afterBrace (lbrace :: cs) = some cs := by
  simp [afterBrace]

theorem takeToLastClose_none_of_not_mem {cs : List Char} (h : rbrace ∉ cs) :
    takeToLastClose cs = none := by
  induction cs with
  | nil => rfl
  | cons c rest ih =>
    have hc : c ≠ rbrace := fun e => h (e ▸ List.mem_cons_self c rest)
    rw [takeToLastClose, ih (fun hm => h (List.mem_cons_of_mem c hm)), if_neg hc]

theorem takeToLastClose_append_close (xs : List Char) :
    takeToLastClose (xs ++ [rbrace]) = some (xs ++ [rbrace]) := by
  induction xs with
  | nil => rfl
  | cons c rest ih => simp only [List.cons_append, takeToLastClose, List.append_eq, ih]

theorem takeToLastClose_append_no_close (xs post : List Char) (h : rbrace ∉ post) :
    takeToLastClose (xs ++ post) = takeToLastClose xs := by
  induction xs with
  | nil => rw [List.nil_append, takeToLastClose_none_of_not_mem h]; rfl
  | cons c rest ih => simp only [List.cons_append, takeToLastClose, List.append_eq, ih]

/-- The greedy span on prose-wrapped object text: no opening brace in the
leading prose and no closing brace in the trailing prose makes the extraction
return exactly the brace-delimited core. -/
theorem extractBraced_wrap (pre mid post : List Char)
    (h1 : lbrace ∉ pre) (h2 : rbrace ∉ post) :
    extractBraced (pre ++ (lbrace :: mid ++ [rbrace]) ++ post)
      = some (lbrace :: mid ++ [rbrace]) := by
  unfold extractBraced
  have hshape : pre ++ (lbrace :: mid ++ [rbrace]) ++ post
      = pre ++ (lbrace :: (mid ++ [rbrace] ++ post)) := by simp
  rw [hshape, afterBrace_append_of_not_mem h1, afterBrace_cons_self]
  have hassoc : mid ++ [rbrace] ++ post = (mid ++ [rbrace]) ++ post := by simp
  rw [Option.some_bind, hassoc, takeToLastClose_append_no_close (mid ++ [rbrace]) post h2,
    takeToLastClose_append_close]
  rfl

/-! ### Claim C3 -/

/-- Claim C3, amended: recovery of a prose-wrapped JSON object is guaranteed
when, in addition to the claim's brace-balance proviso (no opening brace in
the leading prose, no closing brace in the trailing prose, so the greedy span
is the object itself), the whole text is not itself valid JSON and the four
textual repairs leave the extracted object text unchanged; the counterexample
shows recovery fails when a repair (here the quote replacement) alters the
object text. -/
theorem c3_prose_wrapped_recovery :
    ∀ (pre mid post : List Char) (v : JValue),
      lbrace ∉ pre → rbrace ∉ post →
      jsonParse (lbrace :: mid ++ [rbrace]) = some v →
      repairAll (lbrace :: mid ++ [rbrace]) = lbrace :: mid ++ [rbrace] →
      jsonParse (pre ++ (lbrace :: mid ++ [rbrace]) ++ post) = none →
      safeParseJSON (.strVal (pre ++ (lbrace :: mid ++ [rbrace]) ++ post)) = some v := by
  intro pre mid post v h1 h2 hv hrep hwhole
  rw [safeParseJSON_of_parse_none hwhole, extractBraced_wrap pre mid post h1 h2,
    Option.some_bind, hrep, hv]

/-- Witness for C3 (amended): a concrete prose-wrapped object is recovered. -/
theorem c3_prose_wrapped_recovery_witness :
    safeParseJSON (.strVal (c3preW ++ (lbrace :: c3midW ++ [rbrace]) ++ c3postW))
      = some c3valW :=
  c3_prose_wrapped_recovery c3preW c3midW c3postW c3valW
    (by decide) (by decide) (by rfl) (by rfl) (by rfl)

/-- Counterexample for C3 as stated: a valid JSON object whose string content
holds an apostrophe, wrapped in prose satisfying the claim's brace proviso,
is not recovered — the quote repair corrupts it and normalization fails. -/
theorem c3_counterexample :
    (jsonParse c3objCX).isSome = true
    ∧ lbrace ∉ c3preCX
    ∧ rbrace ∉ c3postCX
    ∧ safeParseJSON (.strVal (c3preCX ++ c3objCX ++ c3postCX)) = none :=
  ⟨by rfl, by decide, by decide, by rfl⟩

/-! ### Repair-pass lemmas for claim C4 -/

theorem wsThenClose_some_append {close : Char} {ys r : List Char} (zs : List Char)
    (h : wsThenClose close ys = some r) :
    wsThenClose close (ys ++ zs) = some (r ++ zs) := by
  induction ys generalizing r with
  | nil => cases h
  | cons c rest ih =>
    rw [wsThenClose] at h
    by_cases hc : c = close
    · rw [if_pos hc] at h
      injection h with h2
      rw [List.cons_append, wsThenClose, if_pos hc, h2]
    · rw [if_neg hc] at h
      by_cases hw : jsWsB c = true
      · rw [if_pos hw] at h
        rw [List.cons_append, wsThenClose, if_neg hc, if_pos hw]
        exact ih h
      · rw [if_neg hw] at h; cases h

theorem wsThenClose_none_append_cons {close c2 : Char} {ys : List Char} (zs : List Char)
    (h : wsThenClose close ys = none) (hw : jsWsB c2 = false) (hc : c2 ≠ close) :
    wsThenClose close (ys ++ c2 :: zs) = none := by
  induction ys with
  | nil =>
    rw [List.nil_append, wsThenClose, if_neg hc, hw]
    rfl
  | cons c rest ih =>
    rw [wsThenClose] at h
    by_cases hcc : c = close
    · rw [if_pos hcc] at h; cases h
    · rw [if_neg hcc] at h
      by_cases hww : jsWsB c = true
      · rw [if_pos hww] at h
        rw [List.cons_append, wsThenClose, if_neg hcc, if_pos hww]
        exact ih h
      · rw [List.cons_append, wsThenClose, if_neg hcc]
        simp only [Bool.not_eq_true] at hww
        rw [hww]
        rfl

theorem commaCleanB_append_elim {close : Char} {xs tl : List Char}
    (h : commaCleanB close (xs ++ tl) = true) : commaCleanB close xs = true := by
  induction xs with
  | nil => rfl
  | cons c rest ih =>
    rw [List.cons_append, commaCleanB] at h
    rw [commaCleanB]
    by_cases hc : c = commaC
    · rw [if_pos hc] at h ⊢
      rw [Bool.and_eq_true] at h ⊢
      refine ⟨?_, ih h.2⟩
      have h1 := h.1
      cases hwtc : wsThenClose close rest with
      | none => rfl
      | some r =>
        rw [wsThenClose_some_append tl hwtc] at h1
        simp at h1
    · rw [if_neg hc] at h ⊢
      exact ih h

theorem rcbAux_clean_id {close : Char} :
    ∀ (cs : List Char) (fl : Nat), commaCleanB close cs = true → cs.length ≤ fl →
      rcbAux close fl cs = cs := by
  intro cs
  induction cs with
  | nil => intro fl _ _; cases fl <;> rfl
  | cons c rest ih =>
    intro fl hclean hlen
    cases fl with
    | zero => simp at hlen
    | succ f =>
      rw [commaCleanB] at hclean
      rw [rcbAux]
      by_cases hc : c = commaC
      · rw [if_pos hc] at hclean
        rw [Bool.and_eq_true, Option.isNone_iff_eq_none] at hclean
        rw [if_pos hc, hclean.1, hc]
        rw [ih f hclean.2 (by simpa using Nat.le_of_succ_le_succ hlen)]
      · rw [if_neg hc] at hclean
        rw [if_neg hc, ih f hclean (by simpa using Nat.le_of_succ_le_succ hlen)]

theorem commaCleanB_suffix {close : Char} :
    ∀ {xs tl : List Char}, commaCleanB close (xs ++ tl) = true →
      commaCleanB close tl = true := by
  intro xs
  induction xs with
  | nil => intro tl h; exact h
  | cons c rest ih =>
    intro tl h
    rw [List.cons_append, commaCleanB] at h
    by_cases hc : c = commaC
    · rw [if_pos hc, Bool.and_eq_true] at h
      exact ih h.2
    · rw [if_neg hc] at h
      exact ih h

/-- Inserting one non-whitespace, non-closing character in front of another
non-whitespace, non-closing character does not create a `,\s*close` match. -/
theorem commaClean_insert {close c1 c2 : Char}
    (h1w : jsWsB c1 = false) (h1c : c1 ≠ close)
    (h2w : jsWsB c2 = false) (h2c : c2 ≠ close) :
    ∀ (A tl : List Char), commaCleanB close (A ++ c1 :: tl) = true →
      commaCleanB close (A ++ c2 :: c1 :: tl) = true := by
  intro A
  induction A with
  | nil =>
    intro tl h
    rw [List.nil_append] at h ⊢
    rw [commaCleanB]
    by_cases hc : c2 = commaC
    · rw [if_pos hc, Bool.and_eq_true]
      refine ⟨?_, h⟩
      rw [wsThenClose, if_neg h1c, h1w]
      rfl
    · rw [if_neg hc]
      exact h
  | cons a A2 ih =>
    intro tl h
    rw [List.cons_append, commaCleanB] at h ⊢
    by_cases ha : a = commaC
    · rw [if_pos ha, Bool.and_eq_true] at h ⊢
      refine ⟨?_, ih tl h.2⟩
      have h1 := h.1
      rw [Option.isNone_iff_eq_none] at h1 ⊢
      cases hwtc : wsThenClose close A2 with
      | some r =>
        rw [wsThenClose_some_append (c1 :: tl) hwtc] at h1
        cases h1
      | none =>
        exact wsThenClose_none_append_cons (c1 :: tl) hwtc h2w h2c
    · rw [if_neg ha] at h ⊢
      exact ih tl h

/-- One `,\s*close` pass on a text with one comma inserted directly before a
closing character: the inserted comma is removed and nothing else changes. -/
theorem rcbAux_insert_comma_close {close : Char} (hne : commaC ≠ close) :
    ∀ (A B : List Char) (fl : Nat), commaCleanB close A = true →
      commaCleanB close B = true →
      (A ++ commaC :: close :: B).length ≤ fl →
      rcbAux close fl (A ++ commaC :: close :: B) = A ++ close :: B := by
  intro A
  induction A with
  | nil =>
    intro B fl _ hcleanB hlen
    cases fl with
    | zero => simp at hlen
    | succ f =>
      rw [List.nil_append, List.nil_append, rcbAux, if_pos rfl]
      have hwtc : wsThenClose close (close :: B) = some B := by
        rw [wsThenClose, if_pos rfl]
      rw [hwtc]
      show close :: rcbAux close f B = close :: B
      rw [rcbAux_clean_id B f hcleanB
        (by simp only [List.nil_append, List.length_cons] at hlen; omega)]
  | cons c rest ih =>
    intro B fl hclean hcleanB hlen
    cases fl with
    | zero => simp at hlen
    | succ f =>
      rw [commaCleanB] at hclean
      rw [List.cons_append, rcbAux]
      by_cases hc : c = commaC
      · rw [if_pos hc] at hclean
        rw [Bool.and_eq_true, Option.isNone_iff_eq_none] at hclean
        have hwtc : wsThenClose close (rest ++ commaC :: close :: B) = none :=
          wsThenClose_none_append_cons (close :: B) hclean.1 (by decide) hne
        rw [if_pos hc, hwtc, hc,
          ih B f hclean.2 hcleanB (by simpa using Nat.le_of_succ_le_succ hlen)]
        simp
      · rw [if_neg hc] at hclean
        rw [if_neg hc, ih B f hclean hcleanB (by simpa using Nat.le_of_succ_le_succ hlen)]
        simp

theorem maybeSwap_false (cs : List Char) : maybeSwap false cs = cs := rfl

theorem maybeSwap_true (cs : List Char) : maybeSwap true cs = quoteSwap cs := rfl

theorem repairQuotes_id {cs : List Char} (h : sqC ∉ cs) : repairQuotes cs = cs := by
  induction cs with
  | nil => rfl
  | cons c rest ih =>
    have hc : c ≠ sqC := fun e => h (e ▸ List.mem_cons_self c rest)
    have hr := ih (fun hm => h (List.mem_cons_of_mem c hm))
    simp only [repairQuotes, List.map_cons] at hr ⊢
    rw [if_neg hc, hr]

theorem collapseNewlines_id {cs : List Char} (hcr : crChar ∉ cs) (hlf : lfChar ∉ cs) :
    collapseNewlines cs = cs := by
  induction cs with
  | nil => rfl
  | cons c rest ih =>
    have hc1 : c ≠ crChar := fun e => hcr (e ▸ List.mem_cons_self c rest)
    have hc2 : c ≠ lfChar := fun e => hlf (e ▸ List.mem_cons_self c rest)
    have hr := ih (fun hm => hcr (List.mem_cons_of_mem c hm))
      (fun hm => hlf (List.mem_cons_of_mem c hm))
    cases rest with
    | nil => simp [collapseNewlines, hc1, hc2]
    | cons c2 rest2 => simpa [collapseNewlines, hc1, hc2] using hr

theorem repairQuotes_quoteSwap {cs : List Char} (h : sqC ∉ cs) :
    repairQuotes (quoteSwap cs) = cs := by
  induction cs with
  | nil => rfl
  | cons c rest ih =>
    have hc : c ≠ sqC := fun e => h (e ▸ List.mem_cons_self c rest)
    have hr := ih (fun hm => h (List.mem_cons_of_mem c hm))
    simp only [quoteSwap, repairQuotes, List.map_cons] at hr ⊢
    rw [hr]
    by_cases hdq : c = dq
    · simp [hdq]
    · simp [hdq, hc]

theorem quoteSwap_cons_nondq (c : Char) (h : c ≠ dq) (xs : List Char) :
    quoteSwap (c :: xs) = c :: quoteSwap xs := by
  simp [quoteSwap, h]

theorem quoteSwap_append (xs ys : List Char) :
    quoteSwap (xs ++ ys) = quoteSwap xs ++ quoteSwap ys := by
  simp [quoteSwap]

theorem notmem_quoteSwap {c : Char} (hc : c ≠ sqC) {cs : List Char} (h : c ∉ cs) :
    c ∉ quoteSwap cs := by
  intro hm
  rcases List.mem_map.mp hm with ⟨a, ha, he⟩
  by_cases hadq : a = dq
  · rw [if_pos hadq] at he
    exact hc he.symm
  · rw [if_neg hadq] at he
    exact h (he ▸ ha)

theorem extractBraced_self (xs : List Char) :
    extractBraced (lbrace :: (xs ++ [rbrace])) = some (lbrace :: (xs ++ [rbrace])) := by
  unfold extractBraced
  rw [afterBrace_cons_self, Option.some_bind, takeToLastClose_append_close]
  rfl

/-! ### Claim C4 -/

/-- Pipeline core shared by the sloppy-input families: once the two comma
passes are known to reconstruct the clean object text, any optionally
quote-swapped brace-delimited text normalizes to the clean parse. -/
theorem safeParse_repaired_core (ys mid : List Char) (v : JValue) (sw : Bool)
    (hsq : sqC ∉ ys) (hcr : crChar ∉ ys) (hlf : lfChar ∉ ys)
    (hcomma : repairCommaBracket (repairCommaBrace (lbrace :: ys ++ [rbrace]))
      = lbrace :: mid ++ [rbrace])
    (hv : jsonParse (lbrace :: mid ++ [rbrace]) = some v)
    (hS : jsonParse (maybeSwap sw (lbrace :: ys ++ [rbrace])) = none) :
    safeParseJSON (.strVal (maybeSwap sw (lbrace :: ys ++ [rbrace]))) = some v := by
  have hsq0 : sqC ∉ lbrace :: ys ++ [rbrace] := by
    intro hm
    rcases List.mem_append.mp hm with h | h
    · rcases List.mem_cons.mp h with h2 | h2
      · exact absurd h2 (by decide)
      · exact hsq h2
    · exact absurd h (by decide)
  have hcr0 : crChar ∉ lbrace :: ys ++ [rbrace] := by
    intro hm
    rcases List.mem_append.mp hm with h | h
    · rcases List.mem_cons.mp h with h2 | h2
      · exact absurd h2 (by decide)
      · exact hcr h2
    · exact absurd h (by decide)
  have hlf0 : lfChar ∉ lbrace :: ys ++ [rbrace] := by
    intro hm
    rcases List.mem_append.mp hm with h | h
    · rcases List.mem_cons.mp h with h2 | h2
      · exact absurd h2 (by decide)
      · exact hlf h2
    · exact absurd h (by decide)
  have hQuotes : repairQuotes (maybeSwap sw (lbrace :: ys ++ [rbrace]))
      = lbrace :: ys ++ [rbrace] := by
    cases sw
    · rw [maybeSwap_false]
      exact repairQuotes_id hsq0
    · rw [maybeSwap_true]
      exact repairQuotes_quoteSwap hsq0
  have hCollapse : collapseNewlines (maybeSwap sw (lbrace :: ys ++ [rbrace]))
      = maybeSwap sw (lbrace :: ys ++ [rbrace]) := by
    cases sw
    · rw [maybeSwap_false]
      exact collapseNewlines_id hcr0 hlf0
    · rw [maybeSwap_true]
      exact collapseNewlines_id (notmem_quoteSwap (by decide) hcr0)
        (notmem_quoteSwap (by decide) hlf0)
  have hExtract : extractBraced (maybeSwap sw (lbrace :: ys ++ [rbrace]))
      = some (maybeSwap sw (lbrace :: ys ++ [rbrace])) := by
    cases sw
    · rw [maybeSwap_false]
      have hsh : lbrace :: ys ++ [rbrace] = lbrace :: (ys ++ [rbrace]) := by simp
      rw [hsh, extractBraced_self]
    · rw [maybeSwap_true]
      have hsw : quoteSwap (lbrace :: ys ++ [rbrace])
          = lbrace :: (quoteSwap ys ++ [rbrace]) := by
        rw [quoteSwap_append, quoteSwap_cons_nondq lbrace (by decide) ys,
          show quoteSwap [rbrace] = [rbrace] from rfl]
        simp
      rw [hsw, extractBraced_self, ← hsw]
  rw [safeParseJSON_of_parse_none hS, hExtract, Option.some_bind]
  unfold repairAll
  rw [hCollapse, hQuotes, hcomma, hv]

/-- Claim C4, amended: an input produced from a double-quoted, comma-correct
object text by optionally interchanging the quote characters globally and/or
inserting one comma directly before a closing brace or bracket normalizes to
the clean equivalent's parse, provided the clean text holds no single quotes
and no line breaks, its commas are never followed (modulo whitespace) by a
closing brace or bracket, and the sloppy input is not itself valid JSON; the
counterexample shows the claim fails as stated once a single-quoted string
holds a double quote. -/
theorem c4_sloppy_equivalent :
    ∀ (mid ys : List Char) (v : JValue) (sw : Bool),
      sqC ∉ mid → crChar ∉ mid → lfChar ∉ mid →
      (ys = mid ∨ ys = mid ++ [commaC]
        ∨ ∃ A cl B, mid = A ++ cl :: B ∧ (cl = rbrace ∨ cl = rbrackC)
            ∧ ys = A ++ commaC :: cl :: B) →
      commaCleanB rbrace (lbrace :: mid ++ [rbrace]) = true →
      commaCleanB rbrackC (lbrace :: mid ++ [rbrace]) = true →
      jsonParse (lbrace :: mid ++ [rbrace]) = some v →
      jsonParse (maybeSwap sw (lbrace :: ys ++ [rbrace])) = none →
      safeParseJSON (.strVal (maybeSwap sw (lbrace :: ys ++ [rbrace]))) = some v := by
  intro mid ys v sw hsq hcr hlf hy hccb hccbk hv hS
  rcases hy with h | h | ⟨A, cl, B, hmid, hcl, hys⟩
  · subst h
    refine safeParse_repaired_core ys ys v sw hsq hcr hlf ?_ hv hS
    have h1 : repairCommaBrace (lbrace :: ys ++ [rbrace]) = lbrace :: ys ++ [rbrace] := by
      unfold repairCommaBrace
      exact rcbAux_clean_id _ _ hccb (le_refl _)
    rw [h1]
    unfold repairCommaBracket
    exact rcbAux_clean_id _ _ hccbk (le_refl _)
  · subst h
    have hsq2 : sqC ∉ mid ++ [commaC] := by
      intro hm
      rcases List.mem_append.mp hm with h2 | h2
      · exact hsq h2
      · exact absurd h2 (by decide)
    have hcr2 : crChar ∉ mid ++ [commaC] := by
      intro hm
      rcases List.mem_append.mp hm with h2 | h2
      · exact hcr h2
      · exact absurd h2 (by decide)
    have hlf2 : lfChar ∉ mid ++ [commaC] := by
      intro hm
      rcases List.mem_append.mp hm with h2 | h2
      · exact hlf h2
      · exact absurd h2 (by decide)
    refine safeParse_repaired_core (mid ++ [commaC]) mid v sw hsq2 hcr2 hlf2 ?_ hv hS
    have hclean : commaCleanB rbrace (lbrace :: mid) = true := commaCleanB_append_elim hccb
    have h1 : repairCommaBrace (lbrace :: (mid ++ [commaC]) ++ [rbrace])
        = lbrace :: mid ++ [rbrace] := by
      unfold repairCommaBrace
      have hsh : lbrace :: (mid ++ [commaC]) ++ [rbrace]
          = (lbrace :: mid) ++ commaC :: rbrace :: ([] : List Char) := by simp
      rw [hsh, rcbAux_insert_comma_close (by decide) (lbrace :: mid) [] _ hclean rfl (le_refl _)]
    rw [h1]
    unfold repairCommaBracket
    exact rcbAux_clean_id _ _ hccbk (le_refl _)
  · subst hys
    subst hmid
    have hsqA : sqC ∉ A := fun hm => hsq (List.mem_append.mpr (Or.inl hm))
    have hsqB : sqC ∉ B := fun hm =>
      hsq (List.mem_append.mpr (Or.inr (List.mem_cons_of_mem cl hm)))
    have hcrA : crChar ∉ A := fun hm => hcr (List.mem_append.mpr (Or.inl hm))
    have hcrB : crChar ∉ B := fun hm =>
      hcr (List.mem_append.mpr (Or.inr (List.mem_cons_of_mem cl hm)))
    have hlfA : lfChar ∉ A := fun hm => hlf (List.mem_append.mpr (Or.inl hm))
    have hlfB : lfChar ∉ B := fun hm =>
      hlf (List.mem_append.mpr (Or.inr (List.mem_cons_of_mem cl hm)))
    have hclsq : cl ≠ sqC := by rcases hcl with h | h <;> subst h <;> decide
    have hclcr : cl ≠ crChar := by rcases hcl with h | h <;> subst h <;> decide
    have hcllf : cl ≠ lfChar := by rcases hcl with h | h <;> subst h <;> decide
    have hsq2 : sqC ∉ A ++ commaC :: cl :: B := by
      intro hm
      rcases List.mem_append.mp hm with h2 | h2
      · exact hsqA h2
      · rcases List.mem_cons.mp h2 with h3 | h3
        · exact absurd h3 (by decide)
        · rcases List.mem_cons.mp h3 with h4 | h4
          · exact hclsq h4.symm
          · exact hsqB h4
    have hcr2 : crChar ∉ A ++ commaC :: cl :: B := by
      intro hm
      rcases List.mem_append.mp hm with h2 | h2
      · exact hcrA h2
      · rcases List.mem_cons.mp h2 with h3 | h3
        · exact absurd h3 (by decide)
        · rcases List.mem_cons.mp h3 with h4 | h4
          · exact hclcr h4.symm
          · exact hcrB h4
    have hlf2 : lfChar ∉ A ++ commaC :: cl :: B := by
      intro hm
      rcases List.mem_append.mp hm with h2 | h2
      · exact hlfA h2
      · rcases List.mem_cons.mp h2 with h3 | h3
        · exact absurd h3 (by decide)
        · rcases List.mem_cons.mp h3 with h4 | h4
          · exact hcllf h4.symm
          · exact hlfB h4
    refine safeParse_repaired_core (A ++ commaC :: cl :: B) (A ++ cl :: B) v sw
      hsq2 hcr2 hlf2 ?_ hv hS
    rcases hcl with hc | hc <;> subst hc
    · have heqQ : lbrace :: (A ++ rbrace :: B) ++ [rbrace]
          = (lbrace :: A) ++ rbrace :: (B ++ [rbrace]) := by simp
      have heqQ2 : lbrace :: (A ++ rbrace :: B) ++ [rbrace]
          = ((lbrace :: A) ++ [rbrace]) ++ (B ++ [rbrace]) := by simp
      have hccbQ := hccb
      rw [heqQ] at hccbQ
      have hccbQ2 := hccb
      rw [heqQ2] at hccbQ2
      have hpre : commaCleanB rbrace (lbrace :: A) = true := commaCleanB_append_elim hccbQ
      have hsuf : commaCleanB rbrace (B ++ [rbrace]) = true := commaCleanB_suffix hccbQ2
      have h1 : repairCommaBrace (lbrace :: (A ++ commaC :: rbrace :: B) ++ [rbrace])
          = lbrace :: (A ++ rbrace :: B) ++ [rbrace] := by
        unfold repairCommaBrace
        have hsh : lbrace :: (A ++ commaC :: rbrace :: B) ++ [rbrace]
            = (lbrace :: A) ++ commaC :: rbrace :: (B ++ [rbrace]) := by simp
        rw [hsh, rcbAux_insert_comma_close (by decide) (lbrace :: A) (B ++ [rbrace]) _
          hpre hsuf (le_refl _)]
        simp
      rw [h1]
      unfold repairCommaBracket
      exact rcbAux_clean_id _ _ hccbk (le_refl _)
    · have heqS : lbrace :: (A ++ commaC :: rbrackC :: B) ++ [rbrace]
          = (lbrace :: A) ++ commaC :: rbrackC :: (B ++ [rbrace]) := by simp
      have heqQ : lbrace :: (A ++ rbrackC :: B) ++ [rbrace]
          = (lbrace :: A) ++ rbrackC :: (B ++ [rbrace]) := by simp
      have heqQ2 : lbrace :: (A ++ rbrackC :: B) ++ [rbrace]
          = ((lbrace :: A) ++ [rbrackC]) ++ (B ++ [rbrace]) := by simp
      have hccbQ := hccb
      rw [heqQ] at hccbQ
      have hcleanS : commaCleanB rbrace
          ((lbrace :: A) ++ commaC :: rbrackC :: (B ++ [rbrace])) = true :=
        commaClean_insert (by decide) (by decide) (by decide) (by decide)
          (lbrace :: A) (B ++ [rbrace]) hccbQ
      have h1 : repairCommaBrace (lbrace :: (A ++ commaC :: rbrackC :: B) ++ [rbrace])
          = (lbrace :: A) ++ commaC :: rbrackC :: (B ++ [rbrace]) := by
        unfold repairCommaBrace
        rw [heqS]
        exact rcbAux_clean_id _ _ hcleanS (le_refl _)
      have hccbkQ := hccbk
      rw [heqQ] at hccbkQ
      have hccbkQ2 := hccbk
      rw [heqQ2] at hccbkQ2
      have hpre : commaCleanB rbrackC (lbrace :: A) = true := commaCleanB_append_elim hccbkQ
      have hsuf : commaCleanB rbrackC (B ++ [rbrace]) = true := commaCleanB_suffix hccbkQ2
      rw [h1]
      unfold repairCommaBracket
      rw [rcbAux_insert_comma_close (by decide) (lbrace :: A) (B ++ [rbrace]) _
        hpre hsuf (le_refl _)]
      simp

/-- Witness for C4 (amended), covering both repair families: the
trailing-comma-only input that keeps its double quotes, and the fully
single-quoted input with a comma inserted before a closing bracket; each
normalizes to its clean equivalent's parse. -/
theorem c4_sloppy_equivalent_witness :
    safeParseJSON (.strVal (maybeSwap false (lbrace :: (c4midW ++ [commaC]) ++ [rbrace])))
      = some c4valW
    ∧ safeParseJSON (.strVal (maybeSwap true
        (lbrace :: (c4A2W ++ commaC :: rbrackC :: ([] : List Char)) ++ [rbrace])))
      = some c4val2W :=
  ⟨c4_sloppy_equivalent c4midW (c4midW ++ [commaC]) c4valW false
      (by decide) (by decide) (by decide) (Or.inr (Or.inl rfl))
      (by rfl) (by rfl) (by rfl) (by rfl),
   c4_sloppy_equivalent c4mid2W (c4A2W ++ commaC :: rbrackC :: ([] : List Char)) c4val2W true
      (by decide) (by decide) (by decide)
      (Or.inr (Or.inr ⟨c4A2W, rbrackC, [], by decide, Or.inr rfl, rfl⟩))
      (by rfl) (by rfl) (by rfl) (by rfl)⟩

/-- Counterexample for C4 as stated: the single-quote-delimited input
`\x7b'a':'x"y'\x7d` fails to normalize at all, while its double-quoted,
comma-correct equivalent parses, so normalization of the sloppy input does
not agree with it. -/
theorem c4_counterexample :
    safeParseJSON (.strVal c4sloppyCX) = none
    ∧ (jsonParse c4cleanCX).isSome = true :=
  ⟨by rfl, by rfl⟩

/-! ### Renderer lemmas -/

theorem filterMapPairs_fst_sublist (f : String → Option (String × String))
    (hf : ∀ cat p, f cat = some p → p.1 = cat) :
    ∀ l : List String, ((l.filterMap f).map Prod.fst).Sublist l := by
  intro l
  induction l with
  | nil => simp
  | cons c rest ih =>
    rw [List.filterMap_cons]
    cases h : f c with
    | none => exact ih.cons c
    | some p =>
      rw [List.map_cons, hf c p h]
      exact ih.cons₂ c

theorem renderCats_fst_sublist (es : List CatEntry) :
    ((renderCats es).map Prod.fst).Sublist categoryOrder := by
  unfold renderCats
  refine filterMapPairs_fst_sublist _ ?_ categoryOrder
  intro cat p hfc
  cases hl : lookupP (normalizedCategories es) (lowerKey cat) with
  | none => rw [hl] at hfc; cases hfc
  | some o =>
    cases o with
    | none => rw [hl] at hfc; cases hfc
    | some s =>
      rw [hl] at hfc
      dsimp only at hfc
      by_cases hs : s.isEmpty
      · rw [if_pos hs] at hfc; cases hfc
      · rw [if_neg hs] at hfc
        injection hfc with h1
        rw [← h1]

theorem lookup_foldl_origin (es : List CatEntry) :
    ∀ (m : List (List Char × Option String)) (k : List Char) (w : Option String),
      lookupP (es.foldl (fun m e =>
        match e.category with
        | some c => if c.isEmpty then m else jsInsertP (normKey c) e.summary m
        | none => m) m) k = some w →
      lookupP m k = some w
      ∨ ∃ e, e ∈ es ∧ ∃ c, e.category = some c ∧ c.isEmpty = false
          ∧ normKey c = k ∧ w = e.summary := by
  induction es with
  | nil => intro m k w h; exact Or.inl h
  | cons e rest ih =>
    intro m k w h
    rw [List.foldl_cons] at h
    rcases ih _ k w h with h2 | ⟨e2, he2, hc⟩
    · cases hcat : e.category with
      | none => rw [hcat] at h2; exact Or.inl h2
      | some c =>
        rw [hcat] at h2
        dsimp only at h2
        by_cases hemp : c.isEmpty
        · rw [if_pos hemp] at h2
          exact Or.inl h2
        · rw [if_neg hemp] at h2
          by_cases hk : normKey c = k
          · subst hk
            rw [lookupP_jsInsertP_self] at h2
            injection h2 with h3
            exact Or.inr ⟨e, List.mem_cons_self e rest, c, hcat,
              by simpa using hemp, rfl, h3.symm⟩
          · rw [lookupP_jsInsertP_ne _ _ _ _ hk] at h2
            exact Or.inl h2
    · exact Or.inr ⟨e2, List.mem_cons_of_mem e he2, hc⟩

theorem lookup_normCats_origin {es : List CatEntry} {k : List Char} {w : Option String}
    (h : lookupP (normalizedCategories es) k = some w) :
    ∃ e, e ∈ es ∧ ∃ c, e.category = some c ∧ c.isEmpty = false
      ∧ normKey c = k ∧ w = e.summary := by
  rcases lookup_foldl_origin es [] k w h with h2 | h2
  · cases h2
  · exact h2

/-! ### Claim C7 -/

/-- Claim C7: the rendered category sections list known taxonomy names
strictly in `categoryOrder` order (their name sequence is a sublist of the
taxonomy), every rendered section's name is a taxonomy name matched by some
entry case-insensitively after trimming, and entries whose normalized
category matches no taxonomy name are silently dropped (nothing outside the
taxonomy is ever rendered). -/
theorem c7_render_order :
    ∀ es : List CatEntry,
      ((renderCats es).map Prod.fst).Sublist categoryOrder
      ∧ (∀ cat s, (cat, s) ∈ renderCats es →
          cat ∈ categoryOrder
          ∧ ∃ e, e ∈ es ∧ ∃ c, e.category = some c ∧ c.isEmpty = false
              ∧ normKey c = lowerKey cat ∧ e.summary = some s) := by
  intro es
  refine ⟨renderCats_fst_sublist es, ?_⟩
  intro cat s hmem
  unfold renderCats at hmem
  rcases List.mem_filterMap.mp hmem with ⟨cat2, hcat2, heq⟩
  cases hl : lookupP (normalizedCategories es) (lowerKey cat2) with
  | none => rw [hl] at heq; cases heq
  | some o =>
    cases o with
    | none => rw [hl] at heq; cases heq
    | some s2 =>
      rw [hl] at heq
      dsimp only at heq
      by_cases hs : s2.isEmpty
      · rw [if_pos hs] at heq; cases heq
      · rw [if_neg hs] at heq
        injection heq with h1
        injection h1 with he1 he2
        subst he1
        subst he2
        refine ⟨hcat2, ?_⟩
        obtain ⟨e, he, c, hc1, hc2, hc3, hc4⟩ := lookup_normCats_origin hl
        exact ⟨e, he, c, hc1, hc2, hc3, hc4.symm⟩

/-- Witness for C7: a trim- and case-matched entry is rendered under its
taxonomy name. -/
theorem c7_render_order_witness :
    ("Haematology") ∈ categoryOrder
    ∧ ∃ e, e ∈ c7entries ∧ ∃ c, e.category = some c ∧ c.isEmpty = false
        ∧ normKey c = lowerKey ("Haematology") ∧ e.summary = some ("hb low") :=
  (c7_render_order c7entries).2 ("Haematology") ("hb low") (by decide)

/-! ### Claim C10 -/

/-- Claim C10: in the `normalizedCategories` object later entries with the
same normalized key overwrite earlier ones, so the lookup used by the render
loop yields the last such entry's summary; and an entry whose category field
is absent or the empty string is skipped entirely, leaving the rendered
output unchanged. -/
theorem c10_last_wins :
    ∀ (es : List CatEntry) (e : CatEntry) (c : String),
      (e.category = some c → c.isEmpty = false →
        lookupP (normalizedCategories (es ++ [e])) (normKey c) = some e.summary)
      ∧ (∀ es2 : List CatEntry, e.category = none ∨ e.category = some ("") →
          renderCats (es ++ e :: es2) = renderCats (es ++ es2)) := by
  intro es e c
  constructor
  · intro hcat hemp
    unfold normalizedCategories
    rw [List.foldl_append, List.foldl_cons, List.foldl_nil, hcat]
    dsimp only
    rw [if_neg (by simp [hemp])]
    exact lookupP_jsInsertP_self _ _ _
  · intro es2 hskip
    have hstep : ∀ m : List (List Char × Option String),
        (match e.category with
          | some c2 => if c2.isEmpty then m else jsInsertP (normKey c2) e.summary m
          | none => m) = m := by
      intro m
      rcases hskip with h | h <;> rw [h]
      dsimp only
      rw [if_pos (by rfl)]
    have hmap : normalizedCategories (es ++ e :: es2) = normalizedCategories (es ++ es2) := by
      unfold normalizedCategories
      rw [List.foldl_append, List.foldl_append, List.foldl_cons, hstep]
    unfold renderCats
    rw [hmap]

/-- Witness for C10: with two entries normalizing to the same key, the lookup
feeding the renderer returns the later summary. -/
theorem c10_last_wins_witness :
    lookupP (normalizedCategories (c10entries ++ [c10last])) (normKey (" haematology"))
      = some (some ("second")) :=
  (c10_last_wins c10entries c10last (" haematology")).1 rfl (by decide)
